import Mathlib

/-!
# Intrusive tagged doubly-linked list (`list.h`)

A shallow embedding of `Utils::ListItem<tag>` and `Utils::List<Data, Tag>`.

* A record is identified by its address, a natural number; a `ListItem *` is an
  `Option Nat`, `none` being `NULL`.
* The member `ListItem * peer[ LIST_DIR_NUM]` of one record is a function from
  directions to pointers, and the memory holding all the records of one tag is a
  `Heap`: a function from addresses to peer arrays.
* Every member function takes the heap and the address of `this` and returns the
  heap after the call; the statements of a body become successive heaps.
-/

namespace Utils

/-! ## Directions -/

/-- Directions of a list, `enum ListDir`: the two enumerators that are directions.
`LIST_DIR_NUM = 2` is their number and indexes nothing in `peer`. -/
inductive ListDir where
  | LIST_DIR_RIGHT
  | LIST_DIR_LEFT
  deriving DecidableEq, Repr

/-- Default direction, `LIST_DIR_DEFAULT = LIST_DIR_RIGHT`. -/
abbrev LIST_DIR_DEFAULT : ListDir := ListDir.LIST_DIR_RIGHT

/-- Direction reverse to default, `LIST_DIR_RDEFAULT = LIST_DIR_LEFT`. -/
abbrev LIST_DIR_RDEFAULT : ListDir := ListDir.LIST_DIR_LEFT

/-- Direction that is reverse to the given one:
`( dir == LIST_DIR_DEFAULT)? LIST_DIR_RDEFAULT: LIST_DIR_DEFAULT`. -/
def ListRDir (dir : ListDir) : ListDir :=
  if dir = LIST_DIR_DEFAULT then LIST_DIR_RDEFAULT else LIST_DIR_DEFAULT

/-! ## Link pairs and the heap -/

/-- A pointer to a list item: `none` is `NULL`. -/
abbrev Ptr := Option Nat

/-- The array `peer[ LIST_DIR_NUM]` of one item. -/
abbrev ListItem := ListDir → Ptr

/-- The items of one tag, by address. -/
abbrev Heap := Nat → ListItem

/-- Get neighbour: `return peer[ dir]`. -/
def peerInDir (h : Heap) (self : Nat) (dir : ListDir) : Ptr := h self dir

/-- Set neighbour: `peer[ dir] = p`. -/
def setPeerInDir (h : Heap) (self : Nat) (p : Ptr) (dir : ListDir) : Heap :=
  fun x d => if x = self ∧ d = dir then p else h x d

/-- Set all pointers to peers to zero. -/
def zeroLinks (h : Heap) (self : Nat) : Heap :=
  setPeerInDir (setPeerInDir h self none LIST_DIR_DEFAULT) self none LIST_DIR_RDEFAULT

/-- Next peer in default direction. -/
def next (h : Heap) (self : Nat) : Ptr := peerInDir h self LIST_DIR_DEFAULT

/-- Previous peer in default direction. -/
def prev (h : Heap) (self : Nat) : Ptr := peerInDir h self LIST_DIR_RDEFAULT

/-- Attach this item to peer `p` in the given direction (`ListItem::attachInDir`).
The tests `isNotNullP( p)` and `isNotNullP( rdir_peer)` are the `some` branches. -/
def attachInDir (h : Heap) (self : Nat) (p : Ptr) (dir : ListDir) : Heap :=
  let rdir := ListRDir dir
  let h1 := setPeerInDir h self p dir
  let h2 := setPeerInDir h1 self none rdir
  match p with
  | none => h2
  | some q =>
    let rdir_peer := peerInDir h2 q rdir
    let h3 :=
      match rdir_peer with
      | none => h2
      | some r => setPeerInDir h2 r (some self) dir
    let h4 := setPeerInDir h3 q (some self) rdir
    setPeerInDir h4 self rdir_peer rdir

/-- Attach in default direction (`ListItem::attach`). -/
def attach (h : Heap) (self : Nat) (peer : Ptr) : Heap :=
  attachInDir h self peer LIST_DIR_DEFAULT

/-- Detach from neighbours (`ListItem::detach`). Each `peer[ ...]` is read from
`this` at the point where the source reads it. -/
def detach (h : Heap) (self : Nat) : Heap :=
  let h1 :=
    match h self LIST_DIR_DEFAULT with
    | none => h
    | some n => setPeerInDir h n (h self LIST_DIR_RDEFAULT) LIST_DIR_RDEFAULT
  let h2 :=
    match h1 self LIST_DIR_RDEFAULT with
    | none => h1
    | some p => setPeerInDir h1 p (h1 self LIST_DIR_DEFAULT) LIST_DIR_DEFAULT
  let h3 := setPeerInDir h2 self none LIST_DIR_DEFAULT
  setPeerInDir h3 self none LIST_DIR_RDEFAULT

/-- Default constructor `ListItem()`: the storage of the new item holds whatever
`h` has at `self`; the body zeroes the links. -/
def ListItem_ctor (h : Heap) (self : Nat) : Heap := zeroLinks h self

/-- Constructor `ListItem( ListItem *peer)`: insert before the given item. -/
def ListItem_ctor_peer (h : Heap) (self : Nat) (peer : Ptr) : Heap :=
  attachInDir (zeroLinks h self) self peer LIST_DIR_DEFAULT

/-- Constructor `ListItem( ListItem *peer, ListDir dir)`. -/
def ListItem_ctor_peer_dir (h : Heap) (self : Nat) (peer : Ptr) (dir : ListDir) : Heap :=
  attachInDir (zeroLinks h self) self peer dir

/-- Destructor `~ListItem()`: runs `detach()`. -/
def ListItem_dtor (h : Heap) (self : Nat) : Heap := detach h self

/-- The heap in which every item is isolated. -/
def emptyHeap : Heap := fun _ _ => none

/-! ## The list handle and its iterator -/

/-- The list handle `List<Data, Tag>`: its only data member, `pointer first`. -/
structure ListHandle where
  first : Ptr
  deriving DecidableEq

/-- The class `List::iterator`: its only data member, `ItemType* p`. -/
structure iterator where
  p : Ptr
  deriving DecidableEq

/-- Creation of a handle. `List` declares no constructor, so the implicit one writes
nothing: `first` is whatever the storage of the handle holds. -/
def List_ctor (storage : Ptr) : ListHandle := ⟨storage⟩

/-- Put item in list: `val.ItemType::attach(first); first = &val;`. -/
def List_push_front (h : Heap) (l : ListHandle) (val : Nat) : Heap × ListHandle :=
  (attach h val l.first, ⟨some val⟩)

/-- Reference to the first element, `return *first`: the record referred to, `none`
standing for the dereference of `NULL`. -/
def List_front (l : ListHandle) : Ptr := l.first

/-- Iterator at the first element: `iterator(first)`. -/
def List_begin (l : ListHandle) : iterator := ⟨l.first⟩

/-- The end iterator: `iterator(nullptr)`. -/
def List_end (_l : ListHandle) : iterator := ⟨none⟩

/-- Prefix increment `p = p->ItemType::next()`; no result where `p` is `NULL`. -/
def iterator_inc (h : Heap) (it : iterator) : Option iterator :=
  match it.p with
  | none => none
  | some a => some ⟨next h a⟩

/-- Prefix decrement `p = p->ItemType::prev()`; no result where `p` is `NULL`. -/
def iterator_dec (h : Heap) (it : iterator) : Option iterator :=
  match it.p with
  | none => none
  | some a => some ⟨prev h a⟩

/-- Postfix increment `auto tmp(*this); p = p->ItemType::next(); return tmp;`: the
iterator returned and the iterator after the call; no result where `p` is `NULL`. -/
def iterator_inc_int (h : Heap) (it : iterator) : Option (iterator × iterator) :=
  match it.p with
  | none => none
  | some a => some (it, ⟨next h a⟩)

/-- Postfix decrement `auto tmp(*this); p = p->ItemType::prev(); return tmp;`. -/
def iterator_dec_int (h : Heap) (it : iterator) : Option (iterator × iterator) :=
  match it.p with
  | none => none
  | some a => some (it, ⟨prev h a⟩)

/-- Equality check `operator==`: `i1.p == i2.p`. -/
def iterator_eq (i1 i2 : iterator) : Bool := i1.p == i2.p

/-- Inequality check `operator!=`: `i1.p != i2.p`. -/
def iterator_ne (i1 i2 : iterator) : Bool := i1.p != i2.p

/-- The iterator after `n` prefix increments; no result when one of them is applied
at `NULL`. -/
def advance (h : Heap) : Nat → iterator → Option iterator
  | 0, it => some it
  | n + 1, it => (iterator_inc h it).bind (advance h n)

/-- The traversal loop (`for (auto i = begin(), end = end(); i != end; ++i)` forwards,
`while (isNotNullP(p)) p = p->prev()` backwards): the records visited from `p` following
neighbours in direction `dir` until `NULL`; `none` when the fuel runs out first. -/
def traverse (h : Heap) (dir : ListDir) : Nat → Ptr → Option (List Nat)
  | _, none => some []
  | 0, some _ => none
  | fuel + 1, some a => (traverse h dir fuel (peerInDir h a dir)).map (fun l => a :: l)

/-- The calls `push_front(r1)`, ..., `push_front(rN)` in this order. -/
def pushAll (h : Heap) (l : ListHandle) (rs : List Nat) : Heap × ListHandle :=
  rs.foldl (fun st r => List_push_front st.1 st.2 r) (h, l)

/-- The creation loop of the unit test, `list = new B(list)` for each new record in
turn, on one tag: every record is made by the insert-before constructor with the record
made before it as peer, the first one with `NULL`. The result is the heap and `list`. -/
def buildChain (h : Heap) (xs : List Nat) : Heap × Ptr :=
  xs.foldl (fun st x => (ListItem_ctor_peer st.1 x st.2, some x)) (h, none)

/-- One iteration of the deletion loop: the record destroyed, the value of `next` read
before its destruction, and the heap after its destruction. -/
structure TeardownStep where
  cur : Nat
  nxt : Ptr
  heap : Heap

/-- The deletion loop of the unit test,
`while (isNotNullP(list_temp)) { next = list_temp->nextB(); delete list_temp; list_temp = next; }`:
its iterations in order; `none` when the fuel runs out first. -/
def teardown (h : Heap) : Nat → Ptr → Option (List TeardownStep)
  | _, none => some []
  | 0, some _ => none
  | fuel + 1, some c =>
    (teardown (ListItem_dtor h c) fuel (next h c)).map
      (fun steps => ⟨c, next h c, ListItem_dtor h c⟩ :: steps)

/-! ## Tags

`ListItem<tag>` and `List<Data, Tag>` are templates: a record type that inherits from
`ListItem` under several tags has one `peer` array per tag, and the member functions of
the instantiation for one tag read and write the `peer` arrays of that instantiation. -/

/-- The memory of records that embed one `ListItem<tag>` per tag: the heap of the
`ListItem<tag>` subobjects, for every tag. -/
abbrev TagHeap (Tag : Type) := Tag → Heap

/-- A member function of the instantiation `ListItem<tag>`, whose body is `f`, run on
the tagged memory. -/
def onTag {Tag : Type} [DecidableEq Tag] (tag : Tag) (f : Heap → Heap) (m : TagHeap Tag) :
    TagHeap Tag :=
  fun t => if t = tag then f (m t) else m t

/-- The member `ListItem<tag>::attachInDir`. -/
def ListItemT_attachInDir {Tag : Type} [DecidableEq Tag] (tag : Tag) (m : TagHeap Tag)
    (self : Nat) (p : Ptr) (dir : ListDir) : TagHeap Tag :=
  onTag tag (fun h => attachInDir h self p dir) m

/-- The member `ListItem<tag>::detach`. -/
def ListItemT_detach {Tag : Type} [DecidableEq Tag] (tag : Tag) (m : TagHeap Tag)
    (self : Nat) : TagHeap Tag :=
  onTag tag (fun h => detach h self) m

/-- The constructor `ListItem<tag>::ListItem()`. -/
def ListItemT_ctor {Tag : Type} [DecidableEq Tag] (tag : Tag) (m : TagHeap Tag)
    (self : Nat) : TagHeap Tag :=
  onTag tag (fun h => ListItem_ctor h self) m

/-- The constructor `ListItem<tag>::ListItem( ListItem *peer)`. -/
def ListItemT_ctor_peer {Tag : Type} [DecidableEq Tag] (tag : Tag) (m : TagHeap Tag)
    (self : Nat) (peer : Ptr) : TagHeap Tag :=
  onTag tag (fun h => ListItem_ctor_peer h self peer) m

/-- The constructor `ListItem<tag>::ListItem( ListItem *peer, ListDir dir)`. -/
def ListItemT_ctor_peer_dir {Tag : Type} [DecidableEq Tag] (tag : Tag) (m : TagHeap Tag)
    (self : Nat) (peer : Ptr) (dir : ListDir) : TagHeap Tag :=
  onTag tag (fun h => ListItem_ctor_peer_dir h self peer dir) m

/-- The member `List<Data, tag>::push_front`, whose `ItemType` is `ListItem<tag>`. -/
def ListT_push_front {Tag : Type} [DecidableEq Tag] (tag : Tag) (m : TagHeap Tag)
    (l : ListHandle) (val : Nat) : TagHeap Tag × ListHandle :=
  (onTag tag (fun h => (List_push_front h l val).1) m, (List_push_front (m tag) l val).2)

/-- The tags of the unit test: `class A` inherits from `ListItem<>`, whose tag is
`ListDefaultTag`, and `class B` from `A` and from `ListItem< BListTag>`. -/
inductive TestTag where
  | ListDefaultTag
  | BListTag
  deriving DecidableEq

/-- The constructor `B( B* ptr): Item( ptr){}` of the unit test: the base `A` is
constructed first, which runs `ListItem<>()`, then `ListItem< BListTag>( ptr)`. -/
def B_ctor (m : TagHeap TestTag) (self : Nat) (ptr : Ptr) : TagHeap TestTag :=
  ListItemT_ctor_peer TestTag.BListTag (ListItemT_ctor TestTag.ListDefaultTag m self) self ptr

/-! ## Heaps and predicates used in the statements -/

/-- A heap in which record 1 is its own `Left`-neighbour: what
`attachInDir emptyHeap 1 (some 1) LIST_DIR_LEFT` leaves. -/
def loopHeap : Heap :=
  fun x d => if x = 1 ∧ d = ListDir.LIST_DIR_LEFT then some 1 else none

/-- The chain `2, 1`: record 2 has `Right`-neighbour 1 and record 1 has `Left`-neighbour 2. -/
def pairHeap : Heap :=
  fun x d =>
    if x = 2 ∧ d = ListDir.LIST_DIR_RIGHT then some 1
    else if x = 1 ∧ d = ListDir.LIST_DIR_LEFT then some 2
    else none

/-- The chain `2, 0, 1`: record 0 between its `Left`-neighbour 2 and `Right`-neighbour 1. -/
def tripleHeap : Heap :=
  fun x d =>
    if x = 2 ∧ d = ListDir.LIST_DIR_RIGHT then some 0
    else if x = 0 ∧ d = ListDir.LIST_DIR_LEFT then some 2
    else if x = 0 ∧ d = ListDir.LIST_DIR_RIGHT then some 1
    else if x = 1 ∧ d = ListDir.LIST_DIR_LEFT then some 0
    else none

/-- A tagged memory whose default-tag heap is the chain `2, 1` and whose `BListTag`
heap has every record isolated. -/
def testMem : TagHeap TestTag :=
  fun t => match t with
    | TestTag.ListDefaultTag => pairHeap
    | TestTag.BListTag => emptyHeap

/-- A record is isolated when both of its neighbours are none. -/
def Isolated (h : Heap) (x : Nat) : Prop :=
  h x ListDir.LIST_DIR_RIGHT = none ∧ h x ListDir.LIST_DIR_LEFT = none

/-- The symmetry invariant: `x`'s `Right`-neighbour is `y` iff `y`'s `Left`-neighbour is `x`. -/
def Symmetric (h : Heap) : Prop :=
  ∀ x y, h x ListDir.LIST_DIR_RIGHT = some y ↔ h y ListDir.LIST_DIR_LEFT = some x

/-- The records of `l` form a chain in `h`: each one's `Left`-neighbour is its
predecessor (`p` for the head) and its `Right`-neighbour is its successor (none for
the last). -/
def IsChain (h : Heap) : Ptr → List Nat → Prop
  | _, [] => True
  | p, a :: l =>
    h a ListDir.LIST_DIR_LEFT = p ∧ h a ListDir.LIST_DIR_RIGHT = l.head? ∧ IsChain h (some a) l

/-- Every iteration of a deletion loop continues with `NULL` or with a record that has
not been destroyed (`done` lists the records destroyed before) and whose
`Left`-neighbour is none. -/
def StepsOk : List Nat → List TeardownStep → Prop
  | _, [] => True
  | done, s :: ss =>
    (∀ y, s.nxt = some y → y ∉ s.cur :: done ∧ s.heap y ListDir.LIST_DIR_LEFT = none) ∧
    StepsOk (s.cur :: done) ss

/-- The two-record cycle: records 0 and 1 are each other's neighbour in both directions. -/
def cycleHeap : Heap :=
  fun x _ => if x = 0 then some 1 else if x = 1 then some 0 else none

/-! ## Sequences of calls -/

/-- One call on a link pair: `self.attachInDir(other, dir)` or `self.detach()`. -/
inductive Op where
  | attachInDir (self : Nat) (other : Ptr) (dir : ListDir)
  | detach (self : Nat)

/-- The heap after one call. -/
def Op.run (h : Heap) : Op → Heap
  | Op.attachInDir self other dir => Utils.attachInDir h self other dir
  | Op.detach self => Utils.detach h self

/-- The heap after a finite sequence of calls, first call first. -/
def runOps (h : Heap) (ops : List Op) : Heap := ops.foldl Op.run h

/-- The restriction on one call: an `attachInDir` has an isolated `self` and a peer
other than `self`; a `detach` is unrestricted. -/
def Op.ok (h : Heap) : Op → Prop
  | Op.attachInDir self other _ => Isolated h self ∧ other ≠ some self
  | Op.detach _ => True

/-- Every call of the sequence meets `Op.ok` in the heap it is made in. -/
def OpsOk (h : Heap) : List Op → Prop
  | [] => True
  | op :: ops => Op.ok h op ∧ OpsOk (Op.run h op) ops

/-! ## Basic facts about the accessors -/

theorem setPeerInDir_apply (h : Heap) (self : Nat) (p : Ptr) (dir : ListDir) (x : Nat)
    (d : ListDir) : setPeerInDir h self p dir x d = if x = self ∧ d = dir then p else h x d :=
  rfl

theorem ListRDir_right : ListRDir ListDir.LIST_DIR_RIGHT = ListDir.LIST_DIR_LEFT := rfl

theorem ListRDir_left : ListRDir ListDir.LIST_DIR_LEFT = ListDir.LIST_DIR_RIGHT := rfl

theorem ListRDir_ne (d : ListDir) : ListRDir d ≠ d := by
  cases d <;> decide

/-- Pointwise value of the heap after `attachInDir` with a `NULL` peer. -/
theorem attachInDir_none_apply (h : Heap) (self : Nat) (dir : ListDir) (x : Nat)
    (d : ListDir) : attachInDir h self none dir x d = if x = self then none else h x d := by
  simp only [attachInDir, setPeerInDir_apply]
  cases dir <;> cases d <;> simp [ListRDir]

/-- Pointwise value of the heap after `attachInDir` with a non-`NULL` peer `q`:
the writes of the body, last one first. `rdir_peer` is read after the two writes
to `this`, so it is `NULL` when `q` is `this`. -/
theorem attachInDir_some_apply (h : Heap) (self q : Nat) (dir : ListDir) (x : Nat)
    (d : ListDir) :
    attachInDir h self (some q) dir x d =
      if x = self ∧ d = ListRDir dir then (if q = self then none else h q (ListRDir dir))
      else if x = q ∧ d = ListRDir dir then some self
      else if (if q = self then none else h q (ListRDir dir)) = some x ∧ d = dir then some self
      else if x = self ∧ d = dir then some q
      else h x d := by
  have hrd := ListRDir_ne dir
  have hdr : dir ≠ ListRDir dir := fun e => hrd e.symm
  by_cases hq : q = self
  · subst hq
    simp only [attachInDir, peerInDir, setPeerInDir_apply]
    simp [hrd, hdr, setPeerInDir_apply]
    split_ifs <;> rfl
  · cases hR : h q (ListRDir dir) with
    | none =>
      simp only [attachInDir, peerInDir, setPeerInDir_apply]
      simp [hR, hq, hrd, hdr, setPeerInDir_apply]
      split_ifs <;> rfl
    | some r =>
      simp only [attachInDir, peerInDir, setPeerInDir_apply]
      simp [hR, hq, hrd, hdr, setPeerInDir_apply]
      split_ifs <;> first | rfl | (exfalso; tauto)

/-- Pointwise value of the heap after `detach`. -/
theorem detach_apply (h : Heap) (self : Nat) (x : Nat) (d : ListDir) :
    detach h self x d =
      if x = self then none
      else if h self ListDir.LIST_DIR_LEFT = some x ∧ d = ListDir.LIST_DIR_RIGHT then
        h self ListDir.LIST_DIR_RIGHT
      else if h self ListDir.LIST_DIR_RIGHT = some x ∧ d = ListDir.LIST_DIR_LEFT then
        h self ListDir.LIST_DIR_LEFT
      else h x d := by
  have e1 : (match h self LIST_DIR_DEFAULT with
    | none => h
    | some n => setPeerInDir h n (h self LIST_DIR_RDEFAULT) LIST_DIR_RDEFAULT) self
      ListDir.LIST_DIR_LEFT = h self ListDir.LIST_DIR_LEFT := by
    cases h self LIST_DIR_DEFAULT with
    | none => rfl
    | some n => simp only [setPeerInDir_apply]; split_ifs <;> rfl
  have e2 : (match h self LIST_DIR_DEFAULT with
    | none => h
    | some n => setPeerInDir h n (h self LIST_DIR_RDEFAULT) LIST_DIR_RDEFAULT) self
      ListDir.LIST_DIR_RIGHT = h self ListDir.LIST_DIR_RIGHT := by
    cases hN : h self LIST_DIR_DEFAULT with
    | none => simp [hN]
    | some n => simp [hN, setPeerInDir_apply]
  simp only [detach, e1, e2]
  cases hN : h self ListDir.LIST_DIR_RIGHT with
  | none =>
    cases hP : h self ListDir.LIST_DIR_LEFT with
    | none =>
      simp only [setPeerInDir_apply]
      cases d <;> simp
    | some p =>
      simp only [setPeerInDir_apply]
      cases d <;> simp [hN]
      split_ifs <;> first | rfl | (exfalso; tauto)
  | some n =>
    cases hP : h self ListDir.LIST_DIR_LEFT with
    | none =>
      simp only [setPeerInDir_apply]
      cases d <;> simp [hP]
      split_ifs <;> first | rfl | (exfalso; tauto)
    | some p =>
      simp only [setPeerInDir_apply]
      cases d <;> simp [hN, hP] <;> split_ifs <;> first | rfl | (exfalso; tauto)

/-! ## `attachInDir`: the splice -/

/-- C1 (amended): for every heap, direction `dir`, record `self` and record `other` with
`self` distinct from `other` and from `other`'s `rdir`-neighbour `R`, after
`self.attachInDir(other, dir)`: `self`'s `dir`-neighbour is `other`, `self`'s
`rdir`-neighbour is `R`, `other`'s `rdir`-neighbour is `self`, `R`'s `dir`-neighbour
is `self` when `R` exists, every neighbour field other than these four is unchanged,
and when `R` is not `other` itself this includes `other`'s `dir`-neighbour and `R`'s
`rdir`-neighbour. -/
theorem attachInDir_splice (h : Heap) (dir : ListDir) (self other : Nat)
    (hso : self ≠ other) (hsR : h other (ListRDir dir) ≠ some self) :
    attachInDir h self (some other) dir self dir = some other ∧
    attachInDir h self (some other) dir self (ListRDir dir) = h other (ListRDir dir) ∧
    attachInDir h self (some other) dir other (ListRDir dir) = some self ∧
    (∀ r, h other (ListRDir dir) = some r →
      attachInDir h self (some other) dir r dir = some self) ∧
    (∀ x d, ¬(x = self ∧ d = dir) → ¬(x = self ∧ d = ListRDir dir) →
      ¬(x = other ∧ d = ListRDir dir) → ¬(h other (ListRDir dir) = some x ∧ d = dir) →
      attachInDir h self (some other) dir x d = h x d) ∧
    (h other (ListRDir dir) ≠ some other →
      attachInDir h self (some other) dir other dir = h other dir ∧
      ∀ r, h other (ListRDir dir) = some r →
        attachInDir h self (some other) dir r (ListRDir dir) = h r (ListRDir dir)) := by
  have hos : other ≠ self := fun e => hso e.symm
  have hrd := ListRDir_ne dir
  have hdr : dir ≠ ListRDir dir := fun e => hrd e.symm
  refine ⟨?_, ?_, ?_, ?_, ?_, ?_⟩
  · rw [attachInDir_some_apply]; simp [hdr, hso, hos, hsR]
  · rw [attachInDir_some_apply]; simp [hos]
  · rw [attachInDir_some_apply]; simp [hos]
  · intro r hr
    rw [attachInDir_some_apply]; simp [hr, hdr, hos]
  · intro x d h1 h2 h3 h4
    rw [attachInDir_some_apply]; simp [h1, h2, h3, h4, hos]
  · intro hne
    refine ⟨?_, ?_⟩
    · rw [attachInDir_some_apply]; simp [hdr, hos, hne]
    · intro r hr
      have hro : r ≠ other := fun e => hne (e ▸ hr)
      have hrs : r ≠ self := fun e => hsR (e ▸ hr)
      rw [attachInDir_some_apply]; simp [hro, hrs, hrd]


/-- C1 (counterexample): in `loopHeap` record 1 is its own `Left`-neighbour, so with
`self = 0`, `other = 1`, `dir = Right` the record `R` is `other`; `self` is distinct
from both, and the call changes `other`'s `dir`-neighbour from none to `self`. -/
theorem attachInDir_frame_counterexample :
    (0 : Nat) ≠ 1 ∧
    loopHeap 1 (ListRDir ListDir.LIST_DIR_RIGHT) ≠ some 0 ∧
    loopHeap 1 (ListRDir ListDir.LIST_DIR_RIGHT) = some 1 ∧
    loopHeap 1 ListDir.LIST_DIR_RIGHT = none ∧
    attachInDir loopHeap 0 (some 1) ListDir.LIST_DIR_RIGHT 1 ListDir.LIST_DIR_RIGHT = some 0 ∧
    attachInDir loopHeap 0 (some 1) ListDir.LIST_DIR_RIGHT 1 ListDir.LIST_DIR_RIGHT ≠
      loopHeap 1 ListDir.LIST_DIR_RIGHT := by
  decide

/-- Witness of C1 (amended): record 0 attached before record 1 of the chain `2, 1`. -/
theorem attachInDir_splice_witness :
    (0 : Nat) ≠ 1 ∧ pairHeap 1 (ListRDir ListDir.LIST_DIR_RIGHT) ≠ some 0 ∧
    attachInDir pairHeap 0 (some 1) ListDir.LIST_DIR_RIGHT 0 ListDir.LIST_DIR_RIGHT = some 1 ∧
    attachInDir pairHeap 0 (some 1) ListDir.LIST_DIR_RIGHT 0
      (ListRDir ListDir.LIST_DIR_RIGHT) = pairHeap 1 (ListRDir ListDir.LIST_DIR_RIGHT) ∧
    attachInDir pairHeap 0 (some 1) ListDir.LIST_DIR_RIGHT 1
      (ListRDir ListDir.LIST_DIR_RIGHT) = some 0 :=
  have w := attachInDir_splice pairHeap ListDir.LIST_DIR_RIGHT 0 1 (by decide) (by decide)
  ⟨by decide, by decide, w.1, w.2.1, w.2.2.1⟩

/-! ## `detach` -/

/-- C2: for every heap and every record `self` whose `Right`-neighbour `N` and
`Left`-neighbour `P` are both distinct from `self`, after `self.detach()`: `N`'s
`Left`-neighbour is `P` when `N` exists, `P`'s `Right`-neighbour is `N` when `P`
exists, both neighbours of `self` are none, and every other neighbour field of every
record is unchanged. -/
theorem detach_post (h : Heap) (self : Nat)
    (hN : h self ListDir.LIST_DIR_RIGHT ≠ some self)
    (hP : h self ListDir.LIST_DIR_LEFT ≠ some self) :
    (∀ n, h self ListDir.LIST_DIR_RIGHT = some n →
      detach h self n ListDir.LIST_DIR_LEFT = h self ListDir.LIST_DIR_LEFT) ∧
    (∀ p, h self ListDir.LIST_DIR_LEFT = some p →
      detach h self p ListDir.LIST_DIR_RIGHT = h self ListDir.LIST_DIR_RIGHT) ∧
    detach h self self ListDir.LIST_DIR_RIGHT = none ∧
    detach h self self ListDir.LIST_DIR_LEFT = none ∧
    (∀ x d, x ≠ self →
      ¬(h self ListDir.LIST_DIR_RIGHT = some x ∧ d = ListDir.LIST_DIR_LEFT) →
      ¬(h self ListDir.LIST_DIR_LEFT = some x ∧ d = ListDir.LIST_DIR_RIGHT) →
      detach h self x d = h x d) := by
  refine ⟨?_, ?_, ?_, ?_, ?_⟩
  · intro n hn
    have hns : n ≠ self := fun e => hN (e ▸ hn)
    rw [detach_apply]; simp [hns, hn]
  · intro p hp
    have hps : p ≠ self := fun e => hP (e ▸ hp)
    rw [detach_apply]; simp [hps, hp]
  · rw [detach_apply]; simp
  · rw [detach_apply]; simp
  · intro x d hx h1 h2
    rw [detach_apply]; simp [hx, h1, h2]

/-- Witness of C2: record 0 detached from the chain `2, 0, 1`. -/
theorem detach_post_witness :
    tripleHeap 0 ListDir.LIST_DIR_RIGHT ≠ some 0 ∧
    tripleHeap 0 ListDir.LIST_DIR_LEFT ≠ some 0 ∧
    detach tripleHeap 0 1 ListDir.LIST_DIR_LEFT = some 2 ∧
    detach tripleHeap 0 2 ListDir.LIST_DIR_RIGHT = some 1 ∧
    detach tripleHeap 0 0 ListDir.LIST_DIR_RIGHT = none ∧
    detach tripleHeap 0 0 ListDir.LIST_DIR_LEFT = none :=
  have w := detach_post tripleHeap 0 (by decide) (by decide)
  ⟨by decide, by decide, w.1 1 (by decide), w.2.1 2 (by decide), w.2.2.1, w.2.2.2.1⟩

theorem detach_self (h : Heap) (self : Nat) (d : ListDir) : detach h self self d = none := by
  rw [detach_apply]; simp

theorem detach_of_isolated (h : Heap) (self : Nat) (hi : Isolated h self) :
    detach h self = h := by
  funext x d
  rw [detach_apply, hi.1, hi.2]
  by_cases hx : x = self
  · subst hx
    cases d
    · simp [hi.1]
    · simp [hi.2]
  · simp [hx]

theorem emptyHeap_symmetric : Symmetric emptyHeap := by
  intro x y
  simp [emptyHeap]

/-- C4: for every heap that satisfies the symmetry invariant and every record `S`,
after `S.detach()`, which is what the destructor runs, no record has a `Right`- or
`Left`-neighbour equal to `S`. -/
theorem dtor_no_dangling (h : Heap) (S : Nat) (hsym : Symmetric h) :
    ∀ x d, ListItem_dtor h S x d ≠ some S := by
  intro x d
  have hloop : h S ListDir.LIST_DIR_RIGHT = some S ↔ h S ListDir.LIST_DIR_LEFT = some S :=
    hsym S S
  unfold ListItem_dtor
  rw [detach_apply]
  by_cases hx : x = S
  · simp [hx]
  · simp only [hx, if_false]
    split_ifs with h1 h2
    · intro hN
      have := hloop.1 hN
      rw [h1.1] at this
      exact hx (Option.some.inj this)
    · intro hP
      have := hloop.2 hP
      rw [h2.1] at this
      exact hx (Option.some.inj this)
    · cases d with
      | LIST_DIR_RIGHT =>
        intro hxS
        exact h1 ⟨(hsym x S).1 hxS, rfl⟩
      | LIST_DIR_LEFT =>
        intro hxS
        exact h2 ⟨(hsym S x).2 hxS, rfl⟩

/-- Witness of C4: the chain `2, 0, 1` is symmetric, and after the destructor of
record 0 neither neighbour of record 2 is record 0. -/
theorem dtor_no_dangling_witness :
    ListItem_dtor tripleHeap 0 2 ListDir.LIST_DIR_RIGHT ≠ some 0 ∧
    ListItem_dtor tripleHeap 0 1 ListDir.LIST_DIR_LEFT ≠ some 0 :=
  have hs : Symmetric tripleHeap := by
    intro x y
    simp only [tripleHeap]
    constructor
    · intro hxy
      split_ifs at hxy with h1 h2 h3 h4 <;> simp_all
      all_goals omega
    · intro hxy
      split_ifs at hxy with h1 h2 h3 h4 <;> simp_all
      all_goals omega
  ⟨dtor_no_dangling tripleHeap 0 hs 2 ListDir.LIST_DIR_RIGHT,
   dtor_no_dangling tripleHeap 0 hs 1 ListDir.LIST_DIR_LEFT⟩

/-- C9: for every heap and every record `S`, if `S` is isolated then `S.detach()`
leaves the whole heap unchanged, and calling `S.detach()` twice in a row yields the
same heap as calling it once. -/
theorem detach_idempotent (h : Heap) (S : Nat) :
    (Isolated h S → detach h S = h) ∧ detach (detach h S) S = detach h S :=
  ⟨detach_of_isolated h S,
   detach_of_isolated (detach h S) S ⟨detach_self h S _, detach_self h S _⟩⟩

/-- Witness of C9: detaching the isolated record 0 of the heap of isolated records
changes nothing, and detaching record 0 of the chain `2, 0, 1` twice is detaching it
once. -/
theorem detach_idempotent_witness :
    detach emptyHeap 0 = emptyHeap ∧ detach (detach tripleHeap 0) 0 = detach tripleHeap 0 :=
  ⟨(detach_idempotent emptyHeap 0).1 ⟨rfl, rfl⟩, (detach_idempotent tripleHeap 0).2⟩

/-! ## The symmetry invariant -/

theorem detach_preserves_symmetric (h : Heap) (S : Nat) (hsym : Symmetric h) :
    Symmetric (detach h S) := by
  intro x y
  have f1 := hsym x S
  have f2 := hsym S y
  have f3 := hsym S S
  have f4 := hsym x y
  rw [detach_apply, detach_apply]
  by_cases hx : x = S <;> by_cases hy : y = S <;>
    by_cases hP : h S ListDir.LIST_DIR_LEFT = some x <;>
    by_cases hN : h S ListDir.LIST_DIR_RIGHT = some y <;>
    simp_all <;> first | omega | tauto

theorem attachInDir_of_isolated_none (h : Heap) (self : Nat) (dir : ListDir)
    (hi : Isolated h self) : attachInDir h self none dir = h := by
  funext x d
  rw [attachInDir_none_apply]
  by_cases hx : x = self
  · subst hx
    cases d
    · simp [hi.1]
    · simp [hi.2]
  · simp [hx]

theorem attachInDir_preserves_symmetric (h : Heap) (self : Nat) (other : Ptr) (dir : ListDir)
    (hsym : Symmetric h) (hi : Isolated h self) (hne : other ≠ some self) :
    Symmetric (attachInDir h self other dir) := by
  cases other with
  | none => rw [attachInDir_of_isolated_none h self dir hi]; exact hsym
  | some q =>
    have hq : q ≠ self := fun e => hne (by rw [e])
    intro x y
    have f1 := hsym x y
    have f2 := hsym x q
    have f3 := hsym q y
    have f4 := hsym self y
    have f5 := hsym x self
    have f6 := hsym q self
    have f7 := hsym self q
    have i1 := hi.1
    have i2 := hi.2
    rw [attachInDir_some_apply, attachInDir_some_apply]
    cases dir
    · simp only [ListRDir_right, hq, if_false]
      by_cases hx : x = self <;> by_cases hy : y = self <;>
        by_cases hyq : y = q <;>
        by_cases hP : h q ListDir.LIST_DIR_LEFT = some x <;>
        simp_all <;> first | omega | tauto
    · simp only [ListRDir_left, hq, if_false]
      by_cases hx : x = self <;> by_cases hy : y = self <;>
        by_cases hxq : x = q <;>
        by_cases hP : h q ListDir.LIST_DIR_RIGHT = some y <;>
        simp_all <;> omega

theorem runOps_symmetric (ops : List Op) :
    ∀ h : Heap, Symmetric h → OpsOk h ops → Symmetric (runOps h ops) := by
  induction ops with
  | nil => intro h hsym _; exact hsym
  | cons op ops ih =>
    intro h hsym hok
    have hstep : Symmetric (Op.run h op) := by
      cases op with
      | attachInDir self other dir =>
        exact attachInDir_preserves_symmetric h self other dir hsym hok.1.1 hok.1.2
      | detach self => exact detach_preserves_symmetric h self hsym
    exact ih (Op.run h op) hstep hok.2

/-- C3 (counterexample): from the heap of isolated records, (1) the single call
`0.attachInDir(0, Right)` leaves record 0 with `Right`-neighbour 0 and no
`Left`-neighbour; (2) the calls `0.attachInDir(1, Left)`, `0.attachInDir(2, Left)` leave
record 1 with `Right`-neighbour 0 while the `Left`-neighbour of record 0 is record 2. -/
theorem symmetry_all_sequences_counterexample :
    (runOps emptyHeap [Op.attachInDir 0 (some 0) ListDir.LIST_DIR_RIGHT] 0
        ListDir.LIST_DIR_RIGHT = some 0 ∧
      runOps emptyHeap [Op.attachInDir 0 (some 0) ListDir.LIST_DIR_RIGHT] 0
        ListDir.LIST_DIR_LEFT ≠ some 0) ∧
    (runOps emptyHeap [Op.attachInDir 0 (some 1) ListDir.LIST_DIR_LEFT,
        Op.attachInDir 0 (some 2) ListDir.LIST_DIR_LEFT] 1 ListDir.LIST_DIR_RIGHT = some 0 ∧
      runOps emptyHeap [Op.attachInDir 0 (some 1) ListDir.LIST_DIR_LEFT,
        Op.attachInDir 0 (some 2) ListDir.LIST_DIR_LEFT] 0 ListDir.LIST_DIR_LEFT ≠ some 1) := by
  decide

/-- C3 (amended): starting from a heap in which every record is isolated, after every
finite sequence of `attachInDir(other, dir)` and `detach()` calls in which each
`attachInDir` is made on a `self` that is isolated at the time of the call, with a peer
that is none or a record other than `self`, for all records `X` and `Y`: if `X`'s
`Right`-neighbour is `Y` then `Y`'s `Left`-neighbour is `X`. -/
theorem symmetry_guarded_sequences (ops : List Op) (hok : OpsOk emptyHeap ops) :
    ∀ X Y, runOps emptyHeap ops X ListDir.LIST_DIR_RIGHT = some Y →
      runOps emptyHeap ops Y ListDir.LIST_DIR_LEFT = some X :=
  fun X Y => (runOps_symmetric ops emptyHeap emptyHeap_symmetric hok X Y).1

/-- Witness of C3 (amended): records 1, 2 are attached in turn before record 0, then
record 1 is detached: record 2 has `Right`-neighbour 0 and record 0 has
`Left`-neighbour 2. -/
theorem symmetry_guarded_sequences_witness :
    OpsOk emptyHeap [Op.attachInDir 1 (some 0) ListDir.LIST_DIR_RIGHT,
      Op.attachInDir 2 (some 1) ListDir.LIST_DIR_RIGHT, Op.detach 1] ∧
    runOps emptyHeap [Op.attachInDir 1 (some 0) ListDir.LIST_DIR_RIGHT,
      Op.attachInDir 2 (some 1) ListDir.LIST_DIR_RIGHT, Op.detach 1] 0
        ListDir.LIST_DIR_LEFT = some 2 :=
  have hok : OpsOk emptyHeap [Op.attachInDir 1 (some 0) ListDir.LIST_DIR_RIGHT,
      Op.attachInDir 2 (some 1) ListDir.LIST_DIR_RIGHT, Op.detach 1] := by
    refine ⟨⟨⟨?_, ?_⟩, ?_⟩, ⟨⟨?_, ?_⟩, ?_⟩, trivial, trivial⟩ <;> decide
  ⟨hok, symmetry_guarded_sequences _ hok 2 0 (by decide)⟩

/-! ## Chains and traversal -/

theorem IsChain_congr (h h' : Heap) (l : List Nat) :
    ∀ p, (∀ x ∈ l, ∀ d, h' x d = h x d) → IsChain h p l → IsChain h' p l := by
  induction l with
  | nil => intro _ _ _; trivial
  | cons a l ih =>
    intro p hfr hc
    refine ⟨?_, ?_, ?_⟩
    · rw [hfr a (List.mem_cons_self a l)]; exact hc.1
    · rw [hfr a (List.mem_cons_self a l)]; exact hc.2.1
    · exact ih (some a) (fun x hx d => hfr x (List.mem_cons_of_mem a hx) d) hc.2.2

theorem traverse_right_of_chain (h : Heap) (l : List Nat) :
    ∀ p fuel, IsChain h p l → l.length ≤ fuel →
      traverse h ListDir.LIST_DIR_RIGHT fuel l.head? = some l := by
  induction l with
  | nil => intro p fuel _ _; cases fuel <;> rfl
  | cons a l ih =>
    intro p fuel hc hf
    cases fuel with
    | zero => simp at hf
    | succ fuel =>
      have hl : l.length ≤ fuel := by simpa using hf
      simp only [List.head?_cons, traverse, peerInDir, hc.2.1, ih (some a) fuel hc.2.2 hl,
        Option.map_some']

theorem traverse_left_of_chain (h : Heap) (l : List Nat) :
    ∀ p k tl, IsChain h p l → traverse h ListDir.LIST_DIR_LEFT k p = some tl →
      traverse h ListDir.LIST_DIR_LEFT (k + l.length) (if l = [] then p else l.getLast?)
        = some (l.reverse ++ tl) := by
  induction l with
  | nil => intro p k tl _ ht; simpa using ht
  | cons a l ih =>
    intro p k tl hc ht
    have hstep : traverse h ListDir.LIST_DIR_LEFT (k + 1) (some a) = some (a :: tl) := by
      simp only [traverse, peerInDir, hc.1, ht, Option.map_some']
    have := ih (some a) (k + 1) (a :: tl) hc.2.2 hstep
    cases l with
    | nil => simpa using this
    | cons b l =>
      simp only [List.length_cons] at this ⊢
      simp only [reduceCtorEq, if_false] at this ⊢
      rw [List.getLast?_cons_cons]
      have e : k + (l.length + 1 + 1) = k + 1 + (l.length + 1) := by omega
      rw [e, this]
      simp

theorem push_front_chain (h : Heap) (l : List Nat) (r : Nat) (hc : IsChain h none l)
    (hr : r ∉ l) (hnd : l.Nodup) : IsChain (attach h r l.head?) none (r :: l) := by
  cases l with
  | nil =>
    refine ⟨?_, ?_, trivial⟩
    · simp [attach, attachInDir_none_apply]
    · simp [attach, attachInDir_none_apply]
  | cons f l =>
    have hrf : r ≠ f := fun e => hr (e ▸ List.mem_cons_self f l)
    have hfr : f ≠ r := fun e => hrf e.symm
    have hfl : f ∉ l := (List.nodup_cons.1 hnd).1
    simp only [List.head?_cons, attach]
    refine ⟨?_, ?_, ?_, ?_, ?_⟩
    · rw [attachInDir_some_apply]; simp [ListRDir_right, hfr, hc.1]
    · rw [attachInDir_some_apply]; simp [ListRDir_right, hfr, hc.1]
    · rw [attachInDir_some_apply]; simp [ListRDir_right, hfr]
    · rw [attachInDir_some_apply]; simp [ListRDir_right, hfr, hc.1, hc.2.1]
    · refine IsChain_congr h _ l (some f) ?_ hc.2.2
      intro x hx d
      have hxr : x ≠ r := fun e => hr (e ▸ List.mem_cons_of_mem f hx)
      have hxf : x ≠ f := fun e => hfl (e ▸ hx)
      have hR : h f (ListRDir LIST_DIR_DEFAULT) = none := hc.1
      rw [attachInDir_some_apply]; simp [hxr, hxf, hfr, hR]

theorem pushAll_chain (rs : List Nat) :
    ∀ (h : Heap) (l : List Nat) (hd : ListHandle), IsChain h none l → hd.first = l.head? →
      (rs.reverse ++ l).Nodup →
      IsChain (pushAll h hd rs).1 none (rs.reverse ++ l) ∧
      (pushAll h hd rs).2.first = (rs.reverse ++ l).head? := by
  induction rs with
  | nil => intro h l hd hc hf _; exact ⟨hc, hf⟩
  | cons r rs ih =>
    intro h l hd hc hf hnd
    have e : (r :: rs).reverse ++ l = rs.reverse ++ (r :: l) := by simp
    rw [e] at hnd ⊢
    have hnd2 : (r :: l).Nodup := (List.nodup_append.1 hnd).2.1
    have hstep := push_front_chain h l r hc (List.nodup_cons.1 hnd2).1 (List.nodup_cons.1 hnd2).2
    rw [← hf] at hstep
    exact ih (attach h r hd.first) (r :: l) ⟨some r⟩ hstep rfl hnd

/-- C5: for every `N ≥ 1` and every sequence `r1, ..., rN` of pairwise distinct,
initially isolated records, after `push_front(r1)`, ..., `push_front(rN)` on an empty
list handle, following `Right`-neighbours from `begin()` until none visits exactly
`[rN, ..., r1]`, and following `Left`-neighbours from the last element `r1` until none
visits exactly `[r1, ..., rN]`. Any fuel of at least `N` steps is enough, and the initial links of
the records play no part: `push_front` overwrites both neighbours of its argument. -/
theorem push_front_ordering (h0 : Heap) (r1 : Nat) (rest : List Nat)
    (hnd : (r1 :: rest).Nodup)
    (fuel : Nat) (hfuel : (r1 :: rest).length ≤ fuel) :
    traverse (pushAll h0 ⟨none⟩ (r1 :: rest)).1 ListDir.LIST_DIR_RIGHT fuel
        (List_begin (pushAll h0 ⟨none⟩ (r1 :: rest)).2).p = some (r1 :: rest).reverse ∧
    traverse (pushAll h0 ⟨none⟩ (r1 :: rest)).1 ListDir.LIST_DIR_LEFT fuel (some r1)
        = some (r1 :: rest) := by
  have hnd' : ((r1 :: rest).reverse ++ []).Nodup := by
    rw [List.append_nil]; exact List.nodup_reverse.2 hnd
  have inv := pushAll_chain (r1 :: rest) h0 [] ⟨none⟩ trivial rfl hnd'
  rw [List.append_nil] at inv
  constructor
  · have := traverse_right_of_chain _ _ none fuel inv.1 (by simpa using hfuel)
    rw [List_begin, inv.2]
    exact this
  · have hk : fuel = (fuel - (r1 :: rest).reverse.length) + (r1 :: rest).reverse.length := by
      have : (r1 :: rest).reverse.length ≤ fuel := by simpa using hfuel
      omega
    have := traverse_left_of_chain _ (r1 :: rest).reverse none
      (fuel - (r1 :: rest).reverse.length) [] inv.1 (by cases (fuel - (r1 :: rest).reverse.length) <;> rfl)
    rw [← hk] at this
    simpa using this

/-- Witness of C5: `push_front(1)`, `push_front(2)` on an empty handle give the forward
traversal `[2, 1]` and the backward traversal `[1, 2]`. -/
theorem push_front_ordering_witness :
    traverse (pushAll emptyHeap ⟨none⟩ [1, 2]).1 ListDir.LIST_DIR_RIGHT 2
        (List_begin (pushAll emptyHeap ⟨none⟩ [1, 2]).2).p = some [2, 1] ∧
    traverse (pushAll emptyHeap ⟨none⟩ [1, 2]).1 ListDir.LIST_DIR_LEFT 2 (some 1)
        = some [1, 2] :=
  push_front_ordering emptyHeap 1 [2] (by decide) 2 (by decide)

theorem chain_right_mem (h : Heap) (l : List Nat) :
    ∀ p, IsChain h p l → ∀ e ∈ l, ∀ y, h e ListDir.LIST_DIR_RIGHT = some y → y ∈ l := by
  induction l with
  | nil => intro _ _ e he; cases he
  | cons a l ih =>
    intro p hc e he y hy
    rcases List.mem_cons.1 he with rfl | he'
    · rw [hc.2.1] at hy
      exact List.mem_cons_of_mem _ (List.mem_of_mem_head? hy)
    · exact List.mem_cons_of_mem _ (ih (some a) hc.2.2 e he' y hy)

theorem chain_left_mem (h : Heap) (l : List Nat) :
    ∀ p, IsChain h p l → ∀ e ∈ l,
      l.head? = some e ∨ ∃ y ∈ l, h e ListDir.LIST_DIR_LEFT = some y := by
  induction l with
  | nil => intro _ _ e he; cases he
  | cons a l ih =>
    intro p hc e he
    rcases List.mem_cons.1 he with rfl | he'
    · left; rfl
    · right
      rcases ih (some a) hc.2.2 e he' with hh | ⟨y, hy, hey⟩
      · cases l with
        | nil => cases he'
        | cons b l =>
          simp only [List.head?_cons, Option.some.injEq] at hh
          subst hh
          exact ⟨a, List.mem_cons_self _ _, hc.2.2.1⟩
      · exact ⟨y, List.mem_cons_of_mem _ hy, hey⟩

theorem chain_detach (h : Heap) (e : Nat) (l : List Nat) :
    ∀ p, IsChain h p l → l.Nodup → (∀ x, p = some x → x ∉ l) → e ∈ l →
      IsChain (detach h e) p (l.erase e) := by
  induction l with
  | nil => intro _ _ _ _ he; cases he
  | cons a l ih =>
    intro p hc hnd hp he
    have hal : a ∉ l := (List.nodup_cons.1 hnd).1
    have hndl : l.Nodup := (List.nodup_cons.1 hnd).2
    by_cases hea : e = a
    · subst hea
      rw [List.erase_cons_head]
      cases l with
      | nil => trivial
      | cons b l =>
        have hbe : b ≠ e := fun hb => hal (hb ▸ List.mem_cons_self _ _)
        have hbl : b ∉ l := (List.nodup_cons.1 hndl).1
        have hN : h e ListDir.LIST_DIR_RIGHT = some b := hc.2.1
        have hpb : p ≠ some b := fun hb =>
          hp b hb (List.mem_cons_of_mem _ (List.mem_cons_self _ _))
        refine ⟨?_, ?_, ?_⟩
        · rw [detach_apply]; simp [hbe, hN, hc.1]
        · rw [detach_apply]; simp [hbe, hc.1, hpb]; exact hc.2.2.2.1
        · refine IsChain_congr h _ l (some b) ?_ hc.2.2.2.2
          intro x hx d
          have hxe : x ≠ e := fun hh =>
            hal (hh ▸ List.mem_cons_of_mem _ hx)
          have hxb : b ≠ x := fun hh => hbl (hh ▸ hx)
          have hpx : p ≠ some x := fun hh =>
            hp x hh (List.mem_cons_of_mem _ (List.mem_cons_of_mem _ hx))
          rw [detach_apply]; simp [hxe, hN, hc.1, hxb, hpx]
    · have hel : e ∈ l := by
        rcases List.mem_cons.1 he with hh | hh
        · exact absurd hh hea
        · exact hh
      have hae : a ≠ e := fun hh => hea hh.symm
      have herase : (a :: l).erase e = a :: l.erase e := by
        simp [List.erase_cons, hae]
      rw [herase]
      have hNa : h e ListDir.LIST_DIR_RIGHT ≠ some a := fun hh =>
        hal (chain_right_mem h l (some a) hc.2.2 e hel a hh)
      refine ⟨?_, ?_, ?_⟩
      · rw [detach_apply]; simp [hae, hNa]; exact hc.1
      · rw [detach_apply]
        simp only [hae, if_false, and_true]
        cases l with
        | nil => cases hel
        | cons b l =>
          by_cases hbe : b = e
          · subst hbe
            have hP : h b ListDir.LIST_DIR_LEFT = some a := hc.2.2.1
            rw [List.erase_cons_head]
            simp [hP]
            exact hc.2.2.2.1
          · have hP : h e ListDir.LIST_DIR_LEFT ≠ some a := by
              intro hh
              rcases chain_left_mem h (b :: l) (some a) hc.2.2 e hel with h1 | ⟨y, hy, hey⟩
              · simp only [List.head?_cons, Option.some.injEq] at h1
                exact hbe h1
              · rw [hh] at hey
                exact hal (Option.some.inj hey ▸ hy)
            have herase2 : (b :: l).erase e = b :: l.erase e := by
              simp [List.erase_cons, hbe]
            rw [herase2]
            simp [hP]
            exact hc.2.1
      · exact ih (some a) hc.2.2 hndl (fun x hx => by
          have : a = x := Option.some.inj hx
          exact this ▸ hal) hel

/-! ## The list handle -/

/-- C6: for every list handle with first element `f` (possibly none) and every record
`r` distinct from `f` and from `f`'s `Left`-neighbour, after `push_front(r)`: `front()`
is `r` itself, `begin()` is positioned at `r`, `r`'s `Right`-neighbour is `f`, `f`'s
`Left`-neighbour is `r` when `f` exists, and one increment of `begin()` reaches the
previous first. -/
theorem push_front_first (h : Heap) (l : ListHandle) (r : Nat)
    (hrf : l.first ≠ some r)
    (hrP : ∀ f, l.first = some f → h f ListDir.LIST_DIR_LEFT ≠ some r) :
    List_front (List_push_front h l r).2 = some r ∧
    List_begin (List_push_front h l r).2 = ⟨some r⟩ ∧
    (List_push_front h l r).1 r ListDir.LIST_DIR_RIGHT = l.first ∧
    (∀ f, l.first = some f → (List_push_front h l r).1 f ListDir.LIST_DIR_LEFT = some r) ∧
    iterator_inc (List_push_front h l r).1 (List_begin (List_push_front h l r).2)
      = some ⟨l.first⟩ := by
  have hright : (List_push_front h l r).1 r ListDir.LIST_DIR_RIGHT = l.first := by
    cases hf : l.first with
    | none => simp [List_push_front, attach, hf, attachInDir_none_apply]
    | some f =>
      have hfr : f ≠ r := fun e => hrf (by rw [hf, e])
      have hP : h f ListDir.LIST_DIR_LEFT ≠ some r := hrP f hf
      simp only [List_push_front, attach, hf]
      rw [attachInDir_some_apply]
      simp [hfr, hP, ListRDir_right]
  refine ⟨rfl, rfl, hright, ?_, ?_⟩
  · intro f hf
    have hfr : f ≠ r := fun e => hrf (by rw [hf, e])
    simp only [List_push_front, attach, hf]
    rw [attachInDir_some_apply]
    simp [hfr, ListRDir_right]
  · simp only [iterator_inc, List_begin, next, peerInDir]
    rw [show (List_push_front h l r).2.first = some r from rfl]
    simp only [hright]

/-- Witness of C6: record 0 pushed in front of the chain `2, 1` held by a handle whose
first element is 2. -/
theorem push_front_first_witness :
    List_front (List_push_front pairHeap ⟨some 2⟩ 0).2 = some 0 ∧
    (List_push_front pairHeap ⟨some 2⟩ 0).1 0 ListDir.LIST_DIR_RIGHT = some 2 ∧
    (List_push_front pairHeap ⟨some 2⟩ 0).1 2 ListDir.LIST_DIR_LEFT = some 0 :=
  have w := push_front_first pairHeap ⟨some 2⟩ 0 (by decide)
    (fun f hf => by
      have e : f = 2 := (Option.some.inj hf).symm
      subst e
      decide)
  ⟨w.1, w.2.2.1, w.2.2.2.1 2 rfl⟩

/-- C7 (the code at the failing input): a handle created in storage that holds the
address of record 5 has `begin() != end()`, and after `push_front(0)` the forward
traversal from `begin()` visits `[0, 5]`, not `[0]`. -/
theorem List_ctor_leaves_first :
    List_begin (List_ctor (some 5)) ≠ List_end (List_ctor (some 5)) ∧
    traverse (List_push_front emptyHeap (List_ctor (some 5)) 0).1 ListDir.LIST_DIR_RIGHT 3
      (List_begin (List_push_front emptyHeap (List_ctor (some 5)) 0).2).p = some [0, 5] := by
  decide

/-- C8: for every list built on an empty handle by `push_front` of pairwise distinct
records `rs`, with forward traversal `L` from `begin()` (the reverse of `rs`), and for
every element `e` of `L` other than the first (so there are at least two records), after
`e.detach()` the forward traversal from `begin()` yields `L` with `e` removed, `front()`
is still the first element of `L`, and `e` is isolated. -/
theorem detach_non_first (h0 : Heap) (rs : List Nat) (hnd : rs.Nodup) (e : Nat)
    (he : e ∈ rs.reverse.tail) (fuel : Nat) (hfuel : rs.length ≤ fuel) :
    traverse (pushAll h0 ⟨none⟩ rs).1 ListDir.LIST_DIR_RIGHT fuel
      (List_begin (pushAll h0 ⟨none⟩ rs).2).p = some rs.reverse ∧
    traverse (detach (pushAll h0 ⟨none⟩ rs).1 e) ListDir.LIST_DIR_RIGHT fuel
      (List_begin (pushAll h0 ⟨none⟩ rs).2).p = some (rs.reverse.erase e) ∧
    List_front (pushAll h0 ⟨none⟩ rs).2 = rs.reverse.head? ∧
    Isolated (detach (pushAll h0 ⟨none⟩ rs).1 e) e := by
  have hnd' : (rs.reverse ++ []).Nodup := by
    rw [List.append_nil]; exact List.nodup_reverse.2 hnd
  have inv := pushAll_chain rs h0 [] ⟨none⟩ trivial rfl hnd'
  rw [List.append_nil] at inv hnd'
  have hlen : rs.reverse.length ≤ fuel := by simpa using hfuel
  refine ⟨?_, ?_, inv.2, ⟨detach_self _ _ _, detach_self _ _ _⟩⟩
  · rw [List_begin, inv.2]
    exact traverse_right_of_chain _ _ none fuel inv.1 hlen
  · have hmem : e ∈ rs.reverse := List.mem_of_mem_tail he
    have hc := chain_detach _ e rs.reverse none inv.1 hnd' (fun x hx => by cases hx) hmem
    have hhead : (rs.reverse.erase e).head? = rs.reverse.head? := by
      cases hL : rs.reverse with
      | nil => rfl
      | cons f t =>
        rw [hL] at he hnd'
        have hfe : f ≠ e := fun hh => (List.nodup_cons.1 hnd').1 (hh ▸ he)
        simp [List.erase_cons, hfe]
    rw [List_begin, inv.2, ← hhead]
    refine traverse_right_of_chain _ _ none fuel hc ?_
    exact le_trans (List.length_erase_le e rs.reverse) hlen

/-- Witness of C8: `push_front(3)`, `push_front(2)`, `push_front(1)` give `[1, 2, 3]`
with `front()` = 1; detaching 2 gives `[1, 3]`. -/
theorem detach_non_first_witness :
    traverse (pushAll emptyHeap ⟨none⟩ [3, 2, 1]).1 ListDir.LIST_DIR_RIGHT 3
      (List_begin (pushAll emptyHeap ⟨none⟩ [3, 2, 1]).2).p = some [1, 2, 3] ∧
    traverse (detach (pushAll emptyHeap ⟨none⟩ [3, 2, 1]).1 2) ListDir.LIST_DIR_RIGHT 3
      (List_begin (pushAll emptyHeap ⟨none⟩ [3, 2, 1]).2).p = some [1, 3] ∧
    List_front (pushAll emptyHeap ⟨none⟩ [3, 2, 1]).2 = some 1 :=
  have w := detach_non_first emptyHeap [3, 2, 1] (by decide) 2 (by decide) 3 (by decide)
  ⟨w.1, w.2.1, w.2.2.1⟩

/-! ## Tag independence -/

theorem onTag_other {Tag : Type} [DecidableEq Tag] (A B : Tag) (hAB : A ≠ B)
    (f : Heap → Heap) (m : TagHeap Tag) : onTag A f m B = m B := by
  have hBA : B ≠ A := fun e => hAB e.symm
  simp [onTag, hBA]

theorem onTag_same {Tag : Type} [DecidableEq Tag] (A : Tag) (f : Heap → Heap)
    (m : TagHeap Tag) : onTag A f m A = f (m A) := by
  simp [onTag]

/-- C10: for records that embed link pairs under two different tags `A` and `B`, every
`attachInDir`, `detach`, constructor and `push_front` performed under tag `A` leaves the
tag-`B` neighbour references of every record unchanged, for every heap, record, peer and
direction; and constructing `B(ptr)` of the unit test on a record `self`, with `ptr` a
record other than `self`, makes `self` the `Left`-neighbour of `ptr` under `BListTag`
while the default-tag link pair of `self` is isolated and the default-tag links of every
other record are unchanged. -/
theorem tag_independence {Tag : Type} [DecidableEq Tag] (A B : Tag) (hAB : A ≠ B)
    (m : TagHeap Tag) (self : Nat) (peer : Ptr) (dir : ListDir) (l : ListHandle) :
    ListItemT_attachInDir A m self peer dir B = m B ∧
    ListItemT_detach A m self B = m B ∧
    ListItemT_ctor A m self B = m B ∧
    ListItemT_ctor_peer A m self peer B = m B ∧
    ListItemT_ctor_peer_dir A m self peer dir B = m B ∧
    (ListT_push_front A m l self).1 B = m B ∧
    (∀ (mt : TagHeap TestTag) (q : Nat), q ≠ self →
      B_ctor mt self (some q) TestTag.BListTag q ListDir.LIST_DIR_LEFT = some self ∧
      Isolated (B_ctor mt self (some q) TestTag.ListDefaultTag) self ∧
      ∀ x, x ≠ self →
        B_ctor mt self (some q) TestTag.ListDefaultTag x = mt TestTag.ListDefaultTag x) := by
  refine ⟨onTag_other A B hAB _ m, onTag_other A B hAB _ m, onTag_other A B hAB _ m,
    onTag_other A B hAB _ m, onTag_other A B hAB _ m,
    onTag_other A B hAB (fun h => (List_push_front h l self).1) m, ?_⟩
  intro mt q hq
  have hne : TestTag.BListTag ≠ TestTag.ListDefaultTag := by decide
  have hdef : B_ctor mt self (some q) TestTag.ListDefaultTag
      = zeroLinks (mt TestTag.ListDefaultTag) self := by
    unfold B_ctor ListItemT_ctor_peer
    rw [onTag_other _ _ hne]
    unfold ListItemT_ctor
    rw [onTag_same]
    rfl
  refine ⟨?_, ?_, ?_⟩
  · unfold B_ctor ListItemT_ctor_peer
    rw [onTag_same]
    unfold ListItem_ctor_peer
    rw [attachInDir_some_apply]
    simp [hq, ListRDir_right]
  · rw [hdef]
    constructor <;> simp [zeroLinks, setPeerInDir_apply]
  · intro x hx
    rw [hdef]
    funext d
    simp [zeroLinks, setPeerInDir_apply, hx]

/-- Witness of C10: attaching record 2 before record 1 under `BListTag` leaves the
default-tag chain `2, 1` as it is. -/
theorem tag_independence_witness :
    TestTag.BListTag ≠ TestTag.ListDefaultTag ∧
    ListItemT_attachInDir TestTag.BListTag testMem 2 (some 1) ListDir.LIST_DIR_RIGHT
      TestTag.ListDefaultTag = testMem TestTag.ListDefaultTag ∧
    ListItemT_detach TestTag.BListTag testMem 2 TestTag.ListDefaultTag
      = testMem TestTag.ListDefaultTag :=
  have w := tag_independence TestTag.BListTag TestTag.ListDefaultTag (by decide) testMem 2
    (some 1) ListDir.LIST_DIR_RIGHT ⟨none⟩
  ⟨by decide, w.1, w.2.1⟩

/-! ## Round trip of the two traversals -/

/-- C11: for every `N ≥ 1` and every chain built on an empty list handle by `push_front`
of pairwise distinct records `r1, ..., rN`, forward iteration from `begin()` yields a
sequence `fwd` of exactly `N` records, `fwd` has a last element `last`, and backward
iteration from `last` yields the reverse of `fwd`. Any fuel of at least `N` steps is
enough, and the initial links of the records play no part. -/
theorem traversal_round_trip (h0 : Heap) (r1 : Nat) (rest : List Nat)
    (hnd : (r1 :: rest).Nodup) (fuel : Nat) (hfuel : (r1 :: rest).length ≤ fuel) :
    ∃ (fwd : List Nat) (last : Nat),
      traverse (pushAll h0 ⟨none⟩ (r1 :: rest)).1 ListDir.LIST_DIR_RIGHT fuel
        (List_begin (pushAll h0 ⟨none⟩ (r1 :: rest)).2).p = some fwd ∧
      fwd.length = (r1 :: rest).length ∧
      fwd.getLast? = some last ∧
      traverse (pushAll h0 ⟨none⟩ (r1 :: rest)).1 ListDir.LIST_DIR_LEFT fuel (some last)
        = some fwd.reverse := by
  have hnd' : ((r1 :: rest).reverse ++ []).Nodup := by
    rw [List.append_nil]; exact List.nodup_reverse.2 hnd
  have inv := pushAll_chain (r1 :: rest) h0 [] ⟨none⟩ trivial rfl hnd'
  rw [List.append_nil] at inv
  have hlen : (r1 :: rest).reverse.length ≤ fuel := by simpa using hfuel
  have hlast : (r1 :: rest).reverse.getLast? = some r1 := by
    rw [List.getLast?_reverse]; rfl
  refine ⟨(r1 :: rest).reverse, r1, ?_, List.length_reverse _, hlast, ?_⟩
  · rw [List_begin, inv.2]
    exact traverse_right_of_chain _ _ none fuel inv.1 hlen
  · have hk : fuel = (fuel - (r1 :: rest).reverse.length) + (r1 :: rest).reverse.length := by
      omega
    have hback := traverse_left_of_chain _ (r1 :: rest).reverse none
      (fuel - (r1 :: rest).reverse.length) [] inv.1
      (by cases (fuel - (r1 :: rest).reverse.length) <;> rfl)
    rw [← hk] at hback
    have hne : (r1 :: rest).reverse ≠ [] := by simp
    rw [if_neg hne, List.append_nil, hlast] at hback
    exact hback

/-- Witness of C11: after `push_front(1)`, `push_front(2)`, `push_front(3)` the forward
sequence has three records and a last element, from which the backward sequence is
its reverse. -/
theorem traversal_round_trip_witness :
    ∃ (fwd : List Nat) (last : Nat),
      traverse (pushAll emptyHeap ⟨none⟩ [1, 2, 3]).1 ListDir.LIST_DIR_RIGHT 3
        (List_begin (pushAll emptyHeap ⟨none⟩ [1, 2, 3]).2).p = some fwd ∧
      fwd.length = 3 ∧
      fwd.getLast? = some last ∧
      traverse (pushAll emptyHeap ⟨none⟩ [1, 2, 3]).1 ListDir.LIST_DIR_LEFT 3 (some last)
        = some fwd.reverse :=
  traversal_round_trip emptyHeap 1 [2, 3] (by decide) 3 (by decide)

/-! ## Attaching to no record, directions, iterators -/

/-- C13: for every heap, every record `self`, whatever its neighbours, and every
direction `dir`, after `self.attachInDir(none, dir)` both neighbours of `self` are none
and no neighbour field of another record is changed. -/
theorem attachInDir_none_isolates (h : Heap) (self : Nat) (dir : ListDir) :
    Isolated (attachInDir h self none dir) self ∧
    ∀ x d, x ≠ self → attachInDir h self none dir x d = h x d := by
  refine ⟨⟨?_, ?_⟩, ?_⟩
  · rw [attachInDir_none_apply]; simp
  · rw [attachInDir_none_apply]; simp
  · intro x d hx
    rw [attachInDir_none_apply]; simp [hx]

/-- Witness of C13: record 0 of the chain `2, 0, 1` attached to no record is isolated,
and the `Right`-neighbour of record 2 is still record 0. -/
theorem attachInDir_none_isolates_witness :
    Isolated (attachInDir tripleHeap 0 none ListDir.LIST_DIR_LEFT) 0 ∧
    attachInDir tripleHeap 0 none ListDir.LIST_DIR_LEFT 2 ListDir.LIST_DIR_RIGHT = some 0 :=
  have w := attachInDir_none_isolates tripleHeap 0 ListDir.LIST_DIR_LEFT
  ⟨w.1, w.2 2 ListDir.LIST_DIR_RIGHT (by decide)⟩

/-- C16: `ListRDir(LIST_DIR_RIGHT) = LIST_DIR_LEFT`, `ListRDir(LIST_DIR_LEFT) =
LIST_DIR_RIGHT`, and for each of the two directions `d`, `ListRDir(ListRDir(d)) = d`
and `ListRDir(d) != d`. -/
theorem ListRDir_involution :
    ListRDir ListDir.LIST_DIR_RIGHT = ListDir.LIST_DIR_LEFT ∧
    ListRDir ListDir.LIST_DIR_LEFT = ListDir.LIST_DIR_RIGHT ∧
    ∀ d : ListDir, ListRDir (ListRDir d) = d ∧ ListRDir d ≠ d := by
  refine ⟨rfl, rfl, ?_⟩
  intro d
  cases d <;> exact ⟨rfl, by decide⟩

/-- C15: for every heap and every iterator positioned at a record `c`, `operator++`
repositions it at `c`'s `Right`-neighbour and `operator--` at `c`'s `Left`-neighbour, in
the prefix and in the postfix form, the postfix form returning the iterator as it was;
when `c`'s `Right`-neighbour is none the advanced iterator compares equal to `end()`;
two iterators compare equal with `operator==` if and only if they hold the same
reference, or both none, and `operator!=` is the negation of `operator==`. -/
theorem iterator_step_eq (h : Heap) (c : Nat) (l : ListHandle) (i1 i2 : iterator) :
    iterator_inc h ⟨some c⟩ = some ⟨h c ListDir.LIST_DIR_RIGHT⟩ ∧
    iterator_dec h ⟨some c⟩ = some ⟨h c ListDir.LIST_DIR_LEFT⟩ ∧
    iterator_inc_int h ⟨some c⟩ = some (⟨some c⟩, ⟨h c ListDir.LIST_DIR_RIGHT⟩) ∧
    iterator_dec_int h ⟨some c⟩ = some (⟨some c⟩, ⟨h c ListDir.LIST_DIR_LEFT⟩) ∧
    (h c ListDir.LIST_DIR_RIGHT = none →
      ∃ it, iterator_inc h ⟨some c⟩ = some it ∧ iterator_eq it (List_end l) = true) ∧
    (iterator_eq i1 i2 = true ↔ i1.p = i2.p) ∧
    iterator_ne i1 i2 = !iterator_eq i1 i2 := by
  refine ⟨rfl, rfl, rfl, rfl, ?_, ?_, ?_⟩
  · intro hc
    refine ⟨⟨h c ListDir.LIST_DIR_RIGHT⟩, rfl, ?_⟩
    simp [iterator_eq, List_end, hc]
  · simp [iterator_eq]
  · simp [iterator_ne, iterator_eq, bne]

/-- Witness of C15: in the chain `2, 1` the increment of an iterator at record 1, the
last one, compares equal to `end()`, and its decrement is at record 2. -/
theorem iterator_step_eq_witness :
    iterator_dec pairHeap ⟨some 1⟩ = some ⟨some 2⟩ ∧
    ∃ it, iterator_inc pairHeap ⟨some 1⟩ = some it ∧
      iterator_eq it (List_end ⟨some 2⟩) = true :=
  have w := iterator_step_eq pairHeap 1 ⟨some 2⟩ ⟨none⟩ ⟨none⟩
  ⟨w.2.1, w.2.2.2.2.1 (by decide)⟩

/-! ## Symmetry across one call, and the attach/detach round trip -/

theorem cycleHeap_symmetric : Symmetric cycleHeap := by
  intro x y
  simp only [cycleHeap]
  constructor
  · intro hxy
    split_ifs at hxy with h1 h2 <;> simp_all
  · intro hxy
    split_ifs at hxy with h1 h2 <;> simp_all

theorem zeroLinks_of_isolated (h : Heap) (self : Nat) (hi : Isolated h self) :
    zeroLinks h self = h := by
  funext x d
  simp only [zeroLinks, setPeerInDir_apply]
  by_cases hx : x = self
  · subst hx
    cases d
    · simp [hi.1]
    · simp [hi.2]
  · simp [hx]

/-- C17: for every heap that satisfies the symmetry invariant and every record `S`,
also when the two neighbours of `S` are one record or are `S` itself, the heap after
`S.detach()` satisfies the symmetry invariant. -/
theorem detach_symmetric (h : Heap) (S : Nat) (hsym : Symmetric h) :
    Symmetric (detach h S) :=
  detach_preserves_symmetric h S hsym

/-- Witness of C17: in the two-record cycle both neighbours of record 0 are record 1,
and the heap after `0.detach()` is symmetric. -/
theorem detach_symmetric_witness :
    cycleHeap 0 ListDir.LIST_DIR_RIGHT = some 1 ∧ cycleHeap 0 ListDir.LIST_DIR_LEFT = some 1 ∧
    Symmetric (detach cycleHeap 0) :=
  ⟨by decide, by decide, detach_symmetric cycleHeap 0 cycleHeap_symmetric⟩

/-- C18: for every heap that satisfies the symmetry invariant, every direction `dir`,
every isolated record `self` and every `other` that is none or a record distinct from
`self`, the heap after `self.attachInDir(other, dir)` satisfies the symmetry invariant,
and so does the heap after each of the two inserting constructors run on `self`. -/
theorem attachInDir_symmetric (h : Heap) (self : Nat) (other : Ptr) (dir : ListDir)
    (hsym : Symmetric h) (hi : Isolated h self) (hne : other ≠ some self) :
    Symmetric (attachInDir h self other dir) ∧
    Symmetric (ListItem_ctor_peer h self other) ∧
    Symmetric (ListItem_ctor_peer_dir h self other dir) := by
  refine ⟨attachInDir_preserves_symmetric h self other dir hsym hi hne, ?_, ?_⟩
  · unfold ListItem_ctor_peer
    rw [zeroLinks_of_isolated h self hi]
    exact attachInDir_preserves_symmetric h self other _ hsym hi hne
  · unfold ListItem_ctor_peer_dir
    rw [zeroLinks_of_isolated h self hi]
    exact attachInDir_preserves_symmetric h self other dir hsym hi hne

/-- Witness of C18: the isolated record 2 attached to the left of record 0 of the
two-record cycle. -/
theorem attachInDir_symmetric_witness :
    Symmetric (attachInDir cycleHeap 2 (some 0) ListDir.LIST_DIR_LEFT) ∧
    Symmetric (ListItem_ctor_peer cycleHeap 2 (some 0)) ∧
    Symmetric (ListItem_ctor_peer_dir cycleHeap 2 (some 0) ListDir.LIST_DIR_LEFT) :=
  attachInDir_symmetric cycleHeap 2 (some 0) ListDir.LIST_DIR_LEFT cycleHeap_symmetric
    ⟨by decide, by decide⟩ (by decide)

/-- C19: for every heap that satisfies the symmetry invariant, every direction `dir`,
every isolated record `self` and every record `other` distinct from `self`,
`self.attachInDir(other, dir)` followed by `self.detach()` yields the original heap:
every neighbour field of every record has its original value. -/
theorem attach_detach_round_trip (h : Heap) (self other : Nat) (dir : ListDir)
    (hsym : Symmetric h) (hi : Isolated h self) (hne : other ≠ self) :
    detach (attachInDir h self (some other) dir) self = h := by
  funext x d
  have i1 := hi.1
  have i2 := hi.2
  have s1 := hsym x other
  have s2 := hsym other x
  have s3 := hsym self other
  have s4 := hsym other self
  rw [detach_apply]
  simp only [attachInDir_some_apply]
  cases dir
  · simp only [ListRDir_right, hne, if_false]
    by_cases hx : x = self <;> by_cases hxo : x = other <;>
      by_cases hP : h other ListDir.LIST_DIR_LEFT = some x <;>
      cases d <;> simp_all
  · simp only [ListRDir_left, hne, if_false]
    by_cases hx : x = self <;> by_cases hxo : x = other <;>
      by_cases hP : h other ListDir.LIST_DIR_RIGHT = some x <;>
      cases d <;> simp_all

/-- Witness of C19: record 2 attached to the left of record 0 of the two-record cycle
and detached again. -/
theorem attach_detach_round_trip_witness :
    detach (attachInDir cycleHeap 2 (some 0) ListDir.LIST_DIR_LEFT) 2 = cycleHeap :=
  attach_detach_round_trip cycleHeap 2 0 ListDir.LIST_DIR_LEFT cycleHeap_symmetric
    ⟨by decide, by decide⟩ (by decide)

/-! ## Finiteness of the iteration -/

theorem advance_of_chain (h : Heap) (l : List Nat) :
    ∀ p, IsChain h p l → advance h l.length ⟨l.head?⟩ = some ⟨none⟩ := by
  induction l with
  | nil => intro _ _; rfl
  | cons a l ih =>
    intro p hc
    have hstep : iterator_inc h ⟨some a⟩ = some ⟨l.head?⟩ := by
      simp only [iterator_inc, next, peerInDir]
      rw [hc.2.1]
    simp only [List.length_cons, List.head?_cons, advance, hstep, Option.some_bind]
    exact ih (some a) hc.2.2

theorem advance_of_loop (h : Heap) (a : Nat) (hloop : h a ListDir.LIST_DIR_RIGHT = some a) :
    ∀ n, advance h n ⟨some a⟩ = some ⟨some a⟩ := by
  intro n
  induction n with
  | zero => rfl
  | succ n ih =>
    have hstep : iterator_inc h ⟨some a⟩ = some ⟨some a⟩ := by
      simp only [iterator_inc, next, peerInDir]
      rw [hloop]
    simp only [advance, hstep, Option.some_bind]
    exact ih

/-- C14 (counterexample): after `push_front(0)`, `push_front(0)` on an empty handle
record 0 is its own `Right`-neighbour, and no number of increments of `begin()` gives
an iterator that compares equal to `end()`. -/
theorem iteration_finite_counterexample :
    ¬ ∃ n it, advance (pushAll emptyHeap ⟨none⟩ [0, 0]).1 n
        (List_begin (pushAll emptyHeap ⟨none⟩ [0, 0]).2) = some it ∧
      iterator_eq it (List_end (pushAll emptyHeap ⟨none⟩ [0, 0]).2) = true := by
  rintro ⟨n, it, hadv, heq⟩
  have hb : List_begin (pushAll emptyHeap ⟨none⟩ [0, 0]).2 = ⟨some 0⟩ := rfl
  have hloop : (pushAll emptyHeap ⟨none⟩ [0, 0]).1 0 ListDir.LIST_DIR_RIGHT = some 0 := by
    decide
  rw [hb, advance_of_loop _ 0 hloop n] at hadv
  have hit : it = ⟨some 0⟩ := (Option.some.inj hadv).symm
  subst hit
  revert heq
  decide

/-- C14 (amended): for every list handle that starts empty and every finite sequence of
`push_front` calls of pairwise distinct records, forward iteration that starts at
`begin()` and repeatedly applies `operator++` reaches, after as many steps as there
were calls, an iterator that compares equal to `end()`, and the forward traversal with
that much fuel returns its sequence. -/
theorem iteration_finite (h0 : Heap) (rs : List Nat) (hnd : rs.Nodup) :
    (∃ it, advance (pushAll h0 ⟨none⟩ rs).1 rs.length (List_begin (pushAll h0 ⟨none⟩ rs).2)
        = some it ∧
      iterator_eq it (List_end (pushAll h0 ⟨none⟩ rs).2) = true) ∧
    ∃ l, traverse (pushAll h0 ⟨none⟩ rs).1 ListDir.LIST_DIR_RIGHT rs.length
      (List_begin (pushAll h0 ⟨none⟩ rs).2).p = some l := by
  have hnd' : (rs.reverse ++ []).Nodup := by
    rw [List.append_nil]; exact List.nodup_reverse.2 hnd
  have inv := pushAll_chain rs h0 [] ⟨none⟩ trivial rfl hnd'
  rw [List.append_nil] at inv
  constructor
  · refine ⟨⟨none⟩, ?_, rfl⟩
    have := advance_of_chain _ rs.reverse none inv.1
    rw [List.length_reverse] at this
    rw [List_begin, inv.2]
    exact this
  · refine ⟨rs.reverse, ?_⟩
    rw [List_begin, inv.2]
    exact traverse_right_of_chain _ _ none rs.length inv.1 (by simp)

/-- Witness of C14 (amended): after `push_front(1)`, `push_front(2)`, `push_front(3)`
three increments of `begin()` give `end()`. -/
theorem iteration_finite_witness :
    ∃ it, advance (pushAll emptyHeap ⟨none⟩ [1, 2, 3]).1 3
        (List_begin (pushAll emptyHeap ⟨none⟩ [1, 2, 3]).2) = some it ∧
      iterator_eq it (List_end (pushAll emptyHeap ⟨none⟩ [1, 2, 3]).2) = true :=
  (iteration_finite emptyHeap [1, 2, 3] (by decide)).1

/-! ## Teardown from the front -/

theorem buildChain_chain (xs : List Nat) :
    ∀ (h : Heap) (l : List Nat) (p : Ptr), IsChain h none l → p = l.head? →
      (xs.reverse ++ l).Nodup →
      IsChain (xs.foldl (fun st x => (ListItem_ctor_peer st.1 x st.2, some x)) (h, p)).1 none
        (xs.reverse ++ l) ∧
      (xs.foldl (fun st x => (ListItem_ctor_peer st.1 x st.2, some x)) (h, p)).2
        = (xs.reverse ++ l).head? := by
  induction xs with
  | nil => intro h l p hc hp _; exact ⟨hc, hp⟩
  | cons x xs ih =>
    intro h l p hc hp hnd
    have e : (x :: xs).reverse ++ l = xs.reverse ++ (x :: l) := by simp
    rw [e] at hnd ⊢
    have hnd2 : (x :: l).Nodup := (List.nodup_append.1 hnd).2.1
    have hxl : x ∉ l := (List.nodup_cons.1 hnd2).1
    have hz : IsChain (zeroLinks h x) none l := by
      refine IsChain_congr h _ l none ?_ hc
      intro y hy d
      have hyx : y ≠ x := fun hh => hxl (hh ▸ hy)
      simp [zeroLinks, setPeerInDir_apply, hyx]
    have hstep := push_front_chain (zeroLinks h x) l x hz hxl (List.nodup_cons.1 hnd2).2
    rw [← hp] at hstep
    exact ih (ListItem_ctor_peer h x p) (x :: l) (some x) hstep rfl hnd

theorem teardown_of_chain (l : List Nat) :
    ∀ (h : Heap) (done : List Nat) (fuel : Nat), IsChain h none l → l.Nodup →
      (∀ y ∈ l, y ∉ done) → l.length ≤ fuel →
      ∃ steps, teardown h fuel l.head? = some steps ∧
        steps.map (fun s => s.cur) = l ∧ StepsOk done steps := by
  induction l with
  | nil =>
    intro h done fuel _ _ _ _
    exact ⟨[], by cases fuel <;> rfl, rfl, trivial⟩
  | cons a l ih =>
    intro h done fuel hc hnd hdone hfuel
    cases fuel with
    | zero => simp at hfuel
    | succ fuel =>
      have hal : a ∉ l := (List.nodup_cons.1 hnd).1
      have hndl : l.Nodup := (List.nodup_cons.1 hnd).2
      have hnext : next h a = l.head? := hc.2.1
      have hc' : IsChain (detach h a) none l := by
        have := chain_detach h a (a :: l) none hc hnd (fun x hx => by cases hx)
          (List.mem_cons_self a l)
        rwa [List.erase_cons_head] at this
      have hdone' : ∀ y ∈ l, y ∉ a :: done := by
        intro y hy hmem
        rcases List.mem_cons.1 hmem with hh | hh
        · exact hal (hh ▸ hy)
        · exact hdone y (List.mem_cons_of_mem a hy) hh
      obtain ⟨steps, hrun, hmap, hok⟩ :=
        ih (detach h a) (a :: done) fuel hc' hndl hdone' (by simpa using hfuel)
      refine ⟨⟨a, l.head?, detach h a⟩ :: steps, ?_, ?_, ?_, hok⟩
      · simp only [List.head?_cons, teardown, ListItem_dtor, hnext, hrun, Option.map_some']
      · simp [hmap]
      · intro y hy
        have hyl : y ∈ l := List.mem_of_mem_head? hy
        refine ⟨hdone' y hyl, ?_⟩
        cases l with
        | nil => cases hyl
        | cons b l =>
          simp only [List.head?_cons, Option.some.injEq] at hy
          subst hy
          exact hc'.1

/-- C12: for every `N ≥ 1` and pairwise distinct records `x1, ..., xN`, build a chain by
`x1 = ListItem(none)` and `x(i+1) = ListItem(x(i))`; then forward traversal from `xN`
is `[xN, ..., x1]`, and the loop that reads `cur.next`, destroys `cur` and continues with
the value read, started at `xN`, runs exactly `N` iterations, destroys `xN, ..., x1` in
this order, each once, and at every iteration the record it continues with is none or a
record not yet destroyed whose `Left`-neighbour is none. Any fuel of at least `N` steps
is enough. -/
theorem teardown_from_front (h0 : Heap) (x1 : Nat) (rest : List Nat)
    (hnd : (x1 :: rest).Nodup) (fuel : Nat) (hfuel : (x1 :: rest).length ≤ fuel) :
    (buildChain h0 (x1 :: rest)).2 = (x1 :: rest).getLast? ∧
    traverse (buildChain h0 (x1 :: rest)).1 ListDir.LIST_DIR_RIGHT fuel
      (buildChain h0 (x1 :: rest)).2 = some (x1 :: rest).reverse ∧
    ∃ steps, teardown (buildChain h0 (x1 :: rest)).1 fuel (buildChain h0 (x1 :: rest)).2
        = some steps ∧
      steps.length = (x1 :: rest).length ∧
      steps.map (fun s => s.cur) = (x1 :: rest).reverse ∧
      StepsOk [] steps := by
  have hndr : (x1 :: rest).reverse.Nodup := List.nodup_reverse.2 hnd
  have hnd' : ((x1 :: rest).reverse ++ []).Nodup := by
    rw [List.append_nil]; exact hndr
  have inv := buildChain_chain (x1 :: rest) h0 [] none trivial rfl hnd'
  rw [List.append_nil] at inv
  have hlen : (x1 :: rest).reverse.length ≤ fuel := by simpa using hfuel
  have hcur : (buildChain h0 (x1 :: rest)).2 = (x1 :: rest).reverse.head? := inv.2
  refine ⟨?_, ?_, ?_⟩
  · rw [hcur, List.head?_reverse]
  · rw [hcur]
    exact traverse_right_of_chain _ _ none fuel inv.1 hlen
  · obtain ⟨steps, hrun, hmap, hok⟩ :=
      teardown_of_chain (x1 :: rest).reverse _ [] fuel inv.1 hndr (fun _ _ hh => by cases hh) hlen
    refine ⟨steps, ?_, ?_, hmap, hok⟩
    · rw [hcur]; exact hrun
    · have := congrArg List.length hmap
      simpa using this

/-- Witness of C12: three records 1, 2, 3 built in this order are destroyed in the
order 3, 2, 1 in three iterations. -/
theorem teardown_from_front_witness :
    ∃ steps, teardown (buildChain emptyHeap [1, 2, 3]).1 3 (buildChain emptyHeap [1, 2, 3]).2
        = some steps ∧
      steps.length = 3 ∧ steps.map (fun s => s.cur) = [3, 2, 1] ∧ StepsOk [] steps :=
  (teardown_from_front emptyHeap 1 [2, 3] (by decide) 3 (by decide)).2.2

/-! ## Detaching the first element -/

/-- C20: for every list built on an empty handle by `push_front` of at least two
pairwise distinct records, with first element `f`, second element `s` and further
elements `t`, after `f.detach()` the first reference of the handle is still `f`, so
`front()` is `f` and the forward traversal from `begin()` yields exactly `[f]`; the
records `s :: t` form a chain headed by `s`, whose `Left`-neighbour is none, traversed
forwards from `s` as `s :: t`; and none of them is `f`, the only record visited from the
handle. -/
theorem detach_first (h0 : Heap) (rs : List Nat) (hnd : rs.Nodup) (f s : Nat) (t : List Nat)
    (hL : rs.reverse = f :: s :: t) (fuel : Nat) (hfuel : 1 ≤ fuel) :
    (pushAll h0 ⟨none⟩ rs).2.first = some f ∧
    List_front (pushAll h0 ⟨none⟩ rs).2 = some f ∧
    traverse (detach (pushAll h0 ⟨none⟩ rs).1 f) ListDir.LIST_DIR_RIGHT fuel
      (List_begin (pushAll h0 ⟨none⟩ rs).2).p = some [f] ∧
    IsChain (detach (pushAll h0 ⟨none⟩ rs).1 f) none (s :: t) ∧
    detach (pushAll h0 ⟨none⟩ rs).1 f s ListDir.LIST_DIR_LEFT = none ∧
    traverse (detach (pushAll h0 ⟨none⟩ rs).1 f) ListDir.LIST_DIR_RIGHT (s :: t).length
      (some s) = some (s :: t) ∧
    ∀ x ∈ s :: t, x ∉ [f] := by
  have hnd' : (rs.reverse ++ []).Nodup := by
    rw [List.append_nil]; exact List.nodup_reverse.2 hnd
  have inv := pushAll_chain rs h0 [] ⟨none⟩ trivial rfl hnd'
  rw [List.append_nil, hL] at inv hnd'
  have hfirst : (pushAll h0 ⟨none⟩ rs).2.first = some f := inv.2
  have hc : IsChain (detach (pushAll h0 ⟨none⟩ rs).1 f) none (s :: t) := by
    have := chain_detach _ f (f :: s :: t) none inv.1 hnd' (fun x hx => by cases hx)
      (List.mem_cons_self f _)
    rwa [List.erase_cons_head] at this
  refine ⟨hfirst, hfirst, ?_, hc, hc.1, ?_, ?_⟩
  · rw [List_begin, hfirst]
    cases fuel with
    | zero => simp at hfuel
    | succ fuel =>
      simp only [traverse, peerInDir, detach_self]
      cases fuel <;> rfl
  · exact traverse_right_of_chain _ (s :: t) none _ hc (le_refl _)
  · intro x hx hxf
    have hxf' : x = f := by simpa using hxf
    exact (List.nodup_cons.1 hnd').1 (hxf' ▸ hx)

/-- Witness of C20: after `push_front(3)`, `push_front(2)`, `push_front(1)` and
`1.detach()` the handle still refers to record 1, the traversal from `begin()` is `[1]`,
and the records 2, 3 form the chain `[2, 3]`. -/
theorem detach_first_witness :
    (pushAll emptyHeap ⟨none⟩ [3, 2, 1]).2.first = some 1 ∧
    traverse (detach (pushAll emptyHeap ⟨none⟩ [3, 2, 1]).1 1) ListDir.LIST_DIR_RIGHT 3
      (List_begin (pushAll emptyHeap ⟨none⟩ [3, 2, 1]).2).p = some [1] ∧
    traverse (detach (pushAll emptyHeap ⟨none⟩ [3, 2, 1]).1 1) ListDir.LIST_DIR_RIGHT 2
      (some 2) = some [2, 3] :=
  have w := detach_first emptyHeap [3, 2, 1] (by decide) 1 2 [3] (by decide) 3 (by decide)
  ⟨w.1, w.2.2.1, w.2.2.2.2.2.1⟩

end Utils
